import Mathlib

/-!
# Verification of `divide_and_conquer.py`

A shallow embedding of the two quicksort variants of
`src/psa-5-deli-in-vladaj/vaje/divide_and_conquer.py` and of the benchmark
harness, with proofs of the specified properties.

* `partition`, `quicksort` — the copying variant (Quicksort I).
* `prtn`, `qsrt_bounded`, `qsrt` — the in-place variant (Quicksort II);
  mutation of the Python list is modelled by passing the buffer as a
  `List α` and returning the updated buffer.
* `gen_lists`, `time_srt_calls`, `builtin_sort` — the benchmark harness.

Python's `list.sort()` reference sort is modelled by `List.insertionSort
(· ≤ ·)`: over a total order both produce the unique sorted permutation,
which is the only property the source relies on.
-/

namespace DivideAndConquer

section Copying

variable {α : Type} [LinearOrder α]

/-- One iteration of the `for x in xs[1:]` loop of `partition`: append `x`
to the `le` accumulator when `x <= pivot`, otherwise to the `gt`
accumulator. -/
def partitionStep (pivot : α) (acc : List α × List α) (x : α) : List α × List α :=
  if x ≤ pivot then (acc.1 ++ [x], acc.2) else (acc.1, acc.2 ++ [x])

/-- The loop of `partition` run over the tail `xs[1:]`, starting from the
empty accumulators `le, gt = [], []`. -/
def partitionAux (pivot : α) (rest : List α) : List α × List α :=
  rest.foldl (partitionStep pivot) ([], [])

/-- `partition(xs)` from the source: the pivot is `xs[0]`, and the loop
splits `xs[1:]` into the `<=`-part and the `>`-part.  `none` models the
`IndexError` that `xs[0]` raises on an empty list. -/
def partition : List α → Option (List α × α × List α)
  | [] => none
  | pivot :: rest => some ((partitionAux pivot rest).1, pivot, (partitionAux pivot rest).2)

/-- Running the partition loop from arbitrary accumulators appends the two
filtered subsequences of the remaining input. -/
theorem partitionStep_foldl (pivot : α) :
    ∀ (rest acc1 acc2 : List α),
      rest.foldl (partitionStep pivot) (acc1, acc2) =
        (acc1 ++ rest.filter (fun x => decide (x ≤ pivot)),
         acc2 ++ rest.filter (fun x => !decide (x ≤ pivot)))
  | [], a1, a2 => by simp
  | x :: rest, a1, a2 => by
    rcases le_or_lt x pivot with hx | hx
    · simp [List.foldl_cons, partitionStep, hx, partitionStep_foldl pivot rest,
        List.filter_cons, hx.not_lt]
    · simp [List.foldl_cons, partitionStep, partitionStep_foldl pivot rest,
        List.filter_cons, hx, hx.not_le]

/-- The partition loop computes the two order-preserving filters of the
tail. -/
theorem partitionAux_eq (pivot : α) (rest : List α) :
    partitionAux pivot rest =
      (rest.filter (fun x => decide (x ≤ pivot)),
       rest.filter (fun x => !decide (x ≤ pivot))) := by
  simp [partitionAux, partitionStep_foldl]

/-- `quicksort(xs)` from the source: empty input is returned unchanged,
otherwise partition around `xs[0]` and recurse, concatenating
`quicksort(le) + [pivot] + quicksort(gt)`. -/
def quicksort : List α → List α
  | [] => []
  | pivot :: rest =>
    quicksort (partitionAux pivot rest).1 ++ [pivot] ++ quicksort (partitionAux pivot rest).2
termination_by xs => xs.length
decreasing_by
  · simp only [partitionAux_eq, List.length_cons]
    exact Nat.lt_succ_of_le (List.length_filter_le _ _)
  · simp only [partitionAux_eq, List.length_cons]
    exact Nat.lt_succ_of_le (List.length_filter_le _ _)

/-- The output of the copying quicksort is a permutation of its input. -/
theorem quicksort_perm : ∀ xs : List α, (quicksort xs).Perm xs
  | [] => by simp [quicksort]
  | pivot :: rest => by
    have h1 := quicksort_perm (partitionAux pivot rest).1
    have h2 := quicksort_perm (partitionAux pivot rest).2
    rw [quicksort, partitionAux_eq] at *
    rw [List.append_assoc]
    refine ((h1.append (h2.cons pivot)).trans ?_)
    have hfil : ((rest.filter (fun x => decide (x ≤ pivot))) ++
        rest.filter (fun x => !decide (x ≤ pivot))).Perm rest :=
      List.filter_append_perm (fun x => decide (x ≤ pivot)) rest
    exact List.perm_middle.trans (hfil.cons pivot)
termination_by xs => xs.length
decreasing_by
  · simp only [partitionAux_eq, List.length_cons]
    exact Nat.lt_succ_of_le (List.length_filter_le _ _)
  · simp only [partitionAux_eq, List.length_cons]
    exact Nat.lt_succ_of_le (List.length_filter_le _ _)

/-- The output of the copying quicksort is sorted in non-descending
order. -/
theorem quicksort_sorted : ∀ xs : List α, (quicksort xs).Sorted (· ≤ ·)
  | [] => by simp [quicksort]
  | pivot :: rest => by
    have h1 := quicksort_sorted (partitionAux pivot rest).1
    have h2 := quicksort_sorted (partitionAux pivot rest).2
    have hmem1 : ∀ a ∈ quicksort (partitionAux pivot rest).1, a ≤ pivot := by
      intro a ha
      have := (quicksort_perm (partitionAux pivot rest).1).mem_iff.mp ha
      rw [partitionAux_eq] at this
      simpa using (List.of_mem_filter this)
    have hmem2 : ∀ b ∈ quicksort (partitionAux pivot rest).2, pivot ≤ b := by
      intro b hb
      have := (quicksort_perm (partitionAux pivot rest).2).mem_iff.mp hb
      rw [partitionAux_eq] at this
      have : ¬ b ≤ pivot := by simpa using (List.of_mem_filter this)
      exact le_of_lt (lt_of_not_le this)
    rw [quicksort]
    rw [List.append_assoc]
    rw [List.Sorted, List.pairwise_append]
    refine ⟨h1, ?_, ?_⟩
    · rw [List.singleton_append, List.pairwise_cons]
      exact ⟨hmem2, h2⟩
    · intro a ha b hb
      rcases List.mem_cons.mp (by simpa using hb) with rfl | hb2
      · exact hmem1 a ha
      · exact le_trans (hmem1 a ha) (hmem2 b hb2)
termination_by xs => xs.length
decreasing_by
  · simp only [partitionAux_eq, List.length_cons]
    exact Nat.lt_succ_of_le (List.length_filter_le _ _)
  · simp only [partitionAux_eq, List.length_cons]
    exact Nat.lt_succ_of_le (List.length_filter_le _ _)

/-- The copying quicksort agrees with the reference sort (the unique sorted
permutation). -/
theorem quicksort_eq_insertionSort (xs : List α) :
    quicksort xs = List.insertionSort (· ≤ ·) xs :=
  List.eq_of_perm_of_sorted
    ((quicksort_perm xs).trans (List.perm_insertionSort (· ≤ ·) xs).symm)
    (quicksort_sorted xs)
    (List.sorted_insertionSort (· ≤ ·) xs)

end Copying

section InPlace

variable {α : Type} [LinearOrder α] [Inhabited α]

/-- The simultaneous assignment `xs[a], xs[b] = xs[b], xs[a]` from the
source: both reads happen on the old buffer, then both cells are written.
Out-of-range indices model Python's `IndexError`; all verified uses stay in
range, where `List.set` and `List.getD` agree with Python indexing. -/
def swap (xs : List α) (a b : Nat) : List α :=
  (xs.set a (xs.getD b default)).set b (xs.getD a default)

theorem length_swap (xs : List α) (a b : Nat) : (swap xs a b).length = xs.length := by
  simp [swap]

theorem getD_swap_of_ne (xs : List α) {a b k : Nat} (hka : k ≠ a) (hkb : k ≠ b) :
    (swap xs a b).getD k default = xs.getD k default := by
  simp [swap, List.getElem?_set_ne (Ne.symm hka), List.getElem?_set_ne (Ne.symm hkb)]

theorem getD_swap_left (xs : List α) {a b : Nat} (ha : a < xs.length) (hb : b < xs.length) :
    (swap xs a b).getD a default = xs.getD b default := by
  rcases eq_or_ne a b with rfl | hne
  · rw [swap, List.set_set, List.getD_eq_getElem?_getD, List.getElem?_set_self ha]
    rfl
  · rw [swap, List.getD_eq_getElem?_getD, List.getElem?_set_ne (Ne.symm hne),
      List.getElem?_set_self ha]
    rfl

theorem getD_swap_right (xs : List α) {a b : Nat} (ha : a < xs.length) (hb : b < xs.length) :
    (swap xs a b).getD b default = xs.getD a default := by
  rcases eq_or_ne a b with rfl | hne
  · rw [swap, List.set_set, List.getD_eq_getElem?_getD, List.getElem?_set_self ha]
    rfl
  · rw [swap, List.getD_eq_getElem?_getD,
      List.getElem?_set_self (show b < (xs.set a (xs.getD b default)).length by
        simpa using hb)]
    rfl

/-- Replacing the element at position `m` by `v` while holding on to the old
element is a permutation-preserving exchange. -/
theorem getD_cons_set_perm :
    ∀ (t : List α) (m : Nat) (v : α), m < t.length →
      ((t.getD m default) :: t.set m v).Perm (v :: t)
  | y :: s, 0, v, _ => by
    simpa using List.Perm.swap v y s
  | y :: s, m + 1, v, h => by
    have ih := getD_cons_set_perm s m v (by simpa using h)
    have h1 : ((s.getD m default) :: y :: s.set m v).Perm
        (y :: (s.getD m default) :: s.set m v) := List.Perm.swap y (s.getD m default) _
    have h2 : (y :: (s.getD m default) :: s.set m v).Perm (y :: v :: s) := ih.cons y
    have h3 : (y :: v :: s).Perm (v :: y :: s) := List.Perm.swap v y s
    simpa using (h1.trans h2).trans h3

/-- Swapping two in-range cells of the buffer permutes it. -/
theorem swap_perm :
    ∀ (xs : List α) (a b : Nat), a < xs.length → b < xs.length →
      (swap xs a b).Perm xs
  | x :: t, 0, 0, _, _ => by simp [swap]
  | x :: t, 0, m + 1, _, hb => by
    have hm : m < t.length := by simpa using hb
    simpa [swap] using getD_cons_set_perm t m x hm
  | x :: t, n + 1, 0, ha, _ => by
    have hn : n < t.length := by simpa using ha
    simpa [swap] using getD_cons_set_perm t n x hn
  | x :: t, n + 1, m + 1, ha, hb => by
    have hn : n < t.length := by simpa using ha
    have hm : m < t.length := by simpa using hb
    simpa [swap] using (swap_perm t n m hn hm).cons x

/-- One iteration of the `for i in range(lo, hi)` loop of `prtn`: if
`xs[i] <= pvt`, increment the counter `le` and swap cells `le` and `i`.
The state is the buffer and the counter (an integer, since `le` starts at
`lo - 1`). -/
def prtnStep (pvt : α) (s : List α × Int) (i : Nat) : List α × Int :=
  if s.1.getD i default ≤ pvt then
    (swap s.1 (s.2 + 1).toNat i, s.2 + 1)
  else s

/-- `prtn(xs, lo, hi)` from the source: pivot `xs[hi]`, Lomuto scan of
`range(lo, hi)`, final swap of the pivot into position `le + 1`.  Returns
the updated buffer and the final pivot position. -/
def prtn (xs : List α) (lo hi : Nat) : List α × Nat :=
  let pvt := xs.getD hi default
  let s := (List.range' lo (hi - lo)).foldl (prtnStep pvt) (xs, (lo : Int) - 1)
  (swap s.1 (s.2 + 1).toNat hi, (s.2 + 1).toNat)

/-- Across any run of the partition loop the counter never decreases and
grows by at most the number of iterations. -/
theorem prtnStep_foldl_counter (pvt : α) :
    ∀ (l : List Nat) (s : List α × Int),
      s.2 ≤ (l.foldl (prtnStep pvt) s).2 ∧
        (l.foldl (prtnStep pvt) s).2 ≤ s.2 + l.length
  | [], s => by simp
  | i :: l, s => by
    have step : s.2 ≤ (prtnStep pvt s i).2 ∧ (prtnStep pvt s i).2 ≤ s.2 + 1 := by
      unfold prtnStep
      split <;> simp
    have ih := prtnStep_foldl_counter pvt l (prtnStep pvt s i)
    simp only [List.foldl_cons, List.length_cons]
    omega

/-- The pivot position reported by `prtn` lies inside `[lo, hi]`. -/
theorem prtn_idx_bounds (xs : List α) {lo hi : Nat} (h : lo ≤ hi) :
    lo ≤ (prtn xs lo hi).2 ∧ (prtn xs lo hi).2 ≤ hi := by
  have hb := prtnStep_foldl_counter (xs.getD hi default) (List.range' lo (hi - lo))
    (xs, (lo : Int) - 1)
  simp only [List.length_range'] at hb
  simp only [prtn]
  omega

/-- `qsrt_bounded(xs, lo, hi)` from the source: return at once when
`lo >= hi`, otherwise partition and recurse on `[lo, pvt-1]` and
`[pvt+1, hi]`.  The lower bound is a natural number (it is `0` or a pivot
index plus one in every reachable call), the upper bound an integer (it is
`len(xs) - 1 = -1` on an empty buffer). -/
def qsrt_bounded (xs : List α) (lo : Nat) (hi : Int) : List α :=
  if (lo : Int) ≥ hi then xs
  else
    qsrt_bounded
      (qsrt_bounded (prtn xs lo hi.toNat).1 lo (((prtn xs lo hi.toNat).2 : Int) - 1))
      ((prtn xs lo hi.toNat).2 + 1) hi
termination_by (hi + 1 - lo).toNat
decreasing_by
  · have hlh : lo ≤ hi.toNat := by omega
    have := prtn_idx_bounds xs hlh
    omega
  · have hlh : lo ≤ hi.toNat := by omega
    have h1 := prtn_idx_bounds xs hlh
    omega

/-- `qsrt(xs)` from the source: sort the whole buffer via
`qsrt_bounded(xs, 0, len(xs) - 1)`. -/
def qsrt (xs : List α) : List α :=
  qsrt_bounded xs 0 ((xs.length : Int) - 1)

/-- The contiguous segment of buffer positions `a, a+1, ..., b`. -/
def seg (xs : List α) (a b : Nat) : List α :=
  (xs.drop a).take (b + 1 - a)

end InPlace

section StatePassing

variable {α : Type} [LinearOrder α]

/-- State-passing form of `partition` on a non-empty buffer
`pivot :: rest`: the first component is the buffer after the call.  The
body of `partition` reads `xs[0]` and iterates over `xs[1:]`, appending
only to the freshly allocated lists `le` and `gt`; it performs no
item-assignment on the buffer, so the buffer comes back as received. -/
def partitionS (pivot : α) (rest : List α) : List α × (List α × α × List α) :=
  (pivot :: rest, ((partitionAux pivot rest).1, pivot, (partitionAux pivot rest).2))

/-- State-passing form of `quicksort`: the first component is the argument
buffer after the call, the second the returned freshly built list.  The
recursive calls run on the newly allocated `le` and `gt` lists produced by
`partitionS`, never on the argument buffer. -/
def quicksortS : List α → List α × List α
  | [] => ([], [])
  | pivot :: rest =>
    ((partitionS pivot rest).1,
      (quicksortS (partitionS pivot rest).2.1).2 ++ [(partitionS pivot rest).2.2.1] ++
        (quicksortS (partitionS pivot rest).2.2.2).2)
termination_by xs => xs.length
decreasing_by
  · simp only [partitionS, partitionAux_eq, List.length_cons]
    exact Nat.lt_succ_of_le (List.length_filter_le _ _)
  · simp only [partitionS, partitionAux_eq, List.length_cons]
    exact Nat.lt_succ_of_le (List.length_filter_le _ _)

/-- `builtin_sort(xs)` from the source: `list(xs).sort()` builds a fresh
copy of the buffer, sorts that copy in place, discards it, and the function
returns `None` (modelled by `Unit`).  The result pairs the buffer after the
call with the return value; the sorted copy is computed and dropped exactly
as in the source. -/
def builtin_sort (xs : List α) : List α × Unit :=
  (xs, (fun _ => ()) (List.insertionSort (· ≤ ·) xs))

end StatePassing

section Benchmark

/-- `gen_lists(n, len, max)` from the source:
`[[random.randint(0, max) for i in range(len)] for j in range(n)]`.
The external `random.randint(0, max)` collaborator is modelled by an
oracle `rand` giving the integer drawn for row `j`, column `i`; the
`randint` contract — both bounds inclusive and attainable — becomes the
hypothesis `0 ≤ rand j i ≤ max` where a theorem needs it.  The `max`
argument (default `2 ** 10`) is consumed only by `randint`, hence only by
the oracle's contract. -/
def gen_lists (rand : Nat → Nat → Int) (n len : Nat) (max : Int := 2 ^ 10) :
    List (List Int) :=
  (List.range n).map (fun j => (List.range len).map (fun i => rand j i))

/-- The sequence of `(count, length)` arguments with which `time_srt`
invokes the data generator: the loop `for len in range(minlen, maxlen + 1)`
calls `timer`, whose setup string builds `generator(n_lists, 2**len)` — one
generator call per exponent, asking for `n_lists` sequences of length
`2 ** len`.  Source defaults: `n_lists = 1000`, `minlen = 0`,
`maxlen = 9`. -/
def time_srt_calls (n_lists minlen maxlen : Nat) : List (Nat × Nat) :=
  (List.range' minlen (maxlen + 1 - minlen)).map (fun k => (n_lists, 2 ^ k))

end Benchmark

section InPlaceProofs

variable {α : Type} [LinearOrder α] [Inhabited α]

theorem getD_eq_getElem_of_lt (xs : List α) {j : Nat} (h : j < xs.length) :
    xs.getD j default = xs.get ⟨j, h⟩ := by
  simp [List.getD_eq_getElem?_getD, List.getElem?_eq_getElem h]

theorem getElem?_eq_of_getD {xs ys : List α} (hlen : ys.length = xs.length) {j : Nat}
    (h : ys.getD j default = xs.getD j default) : ys[j]? = xs[j]? := by
  rcases Nat.lt_or_ge j xs.length with hj | hj
  · have hj' : j < ys.length := hlen ▸ hj
    simp only [List.getD_eq_getElem?_getD, List.getElem?_eq_getElem hj,
      List.getElem?_eq_getElem hj', Option.getD_some] at h
    rw [List.getElem?_eq_getElem hj, List.getElem?_eq_getElem hj']
    exact congrArg some h
  · have hj' : ys.length ≤ j := hlen ▸ hj
    rw [List.getElem?_eq_none hj, List.getElem?_eq_none hj']

theorem take_eq_of_getD {xs ys : List α} (a : Nat) (hlen : ys.length = xs.length)
    (h : ∀ j, j < a → ys.getD j default = xs.getD j default) :
    ys.take a = xs.take a := by
  apply List.ext_getElem?
  intro n
  rcases Nat.lt_or_ge n a with hn | hn
  · rw [List.getElem?_take_of_lt hn, List.getElem?_take_of_lt hn]
    exact getElem?_eq_of_getD hlen (h n hn)
  · rw [List.getElem?_take_eq_none hn, List.getElem?_take_eq_none hn]

theorem drop_eq_of_getD {xs ys : List α} (a : Nat) (hlen : ys.length = xs.length)
    (h : ∀ j, a ≤ j → ys.getD j default = xs.getD j default) :
    ys.drop a = xs.drop a := by
  apply List.ext_getElem?
  intro n
  rw [List.getElem?_drop, List.getElem?_drop]
  exact getElem?_eq_of_getD hlen (h (a + n) (Nat.le_add_right a n))

/-- A permutation of the whole buffer that fixes every position outside
`[a, b]` pointwise restricts to a permutation of the segment `[a, b]`. -/
theorem seg_perm_of {xs ys : List α} (a b : Nat) (hlen : ys.length = xs.length)
    (hperm : ys.Perm xs)
    (hlow : ∀ j, j < a → ys.getD j default = xs.getD j default)
    (hhigh : ∀ j, b < j → ys.getD j default = xs.getD j default) :
    (seg ys a b).Perm (seg xs a b) := by
  have hdecy : ys.take a ++ (seg ys a b ++ ys.drop (a + (b + 1 - a))) = ys := by
    simp only [seg]
    rw [← List.drop_drop, List.take_append_drop, List.take_append_drop]
  have hdecx : xs.take a ++ (seg xs a b ++ xs.drop (a + (b + 1 - a))) = xs := by
    simp only [seg]
    rw [← List.drop_drop, List.take_append_drop, List.take_append_drop]
  have htake : ys.take a = xs.take a := take_eq_of_getD a hlen hlow
  have hdrop : ys.drop (a + (b + 1 - a)) = xs.drop (a + (b + 1 - a)) := by
    refine drop_eq_of_getD _ hlen (fun j hj => ?_)
    rcases Nat.lt_or_ge a (b + 1) with hab | hab
    · exact hhigh j (by omega)
    · exact hhigh j (by omega)
  have hm : (ys : Multiset α) = (xs : Multiset α) := Multiset.coe_eq_coe.mpr hperm
  rw [← hdecy, ← hdecx, htake, hdrop] at hm
  rw [← Multiset.coe_add, ← Multiset.coe_add, ← Multiset.coe_add, ← Multiset.coe_add] at hm
  have hseg : (seg ys a b : Multiset α) = (seg xs a b : Multiset α) := by
    have h1 := add_left_cancel hm
    exact add_right_cancel h1
  exact Multiset.coe_eq_coe.mp hseg

/-- Membership in a segment, phrased through positions. -/
theorem mem_seg {xs : List α} {a b : Nat} {x : α} :
    x ∈ seg xs a b ↔
      ∃ j : Nat, a ≤ j ∧ j ≤ b ∧ j < xs.length ∧ xs.getD j default = x := by
  constructor
  · intro hx
    rcases List.mem_iff_getElem.mp hx with ⟨i, hi, hx⟩
    have hi1 : i < b + 1 - a ∧ i < xs.length - a := by
      have := hi
      simp only [seg, List.length_take, List.length_drop, Nat.lt_min] at this
      exact this
    refine ⟨a + i, Nat.le_add_right a i, by omega, by omega, ?_⟩
    rw [getD_eq_getElem_of_lt xs (show a + i < xs.length by omega)]
    simp only [seg] at hx
    rw [← hx]
    simp [List.getElem_take, List.getElem_drop]
  · rintro ⟨j, haj, hjb, hjl, hx⟩
    refine List.mem_iff_getElem.mpr ⟨j - a, ?_, ?_⟩
    · simp only [seg, List.length_take, List.length_drop, Nat.lt_min]
      omega
    · have hlt : a + (j - a) < xs.length := by omega
      rw [← hx, getD_eq_getElem_of_lt xs hjl]
      simp only [seg, List.getElem_take, List.getElem_drop]
      congr 1
      omega

/-- The Lomuto scan invariant: running the loop of `prtn` from a state that
satisfies the invariant at position `i` yields, after the remaining `n`
iterations, a state satisfying it at position `hi`. -/
theorem prtn_loop_inv (pvt : α) (xs0 : List α) (lo hi : Nat)
    (hhi : hi < xs0.length) :
    ∀ (n i : Nat) (ys : List α) (le : Int),
      i + n = hi →
      lo ≤ i →
      ys.length = xs0.length →
      ys.Perm xs0 →
      (lo : Int) - 1 ≤ le →
      le < (i : Int) →
      (∀ j : Nat, lo ≤ j → (j : Int) ≤ le → ys.getD j default ≤ pvt) →
      (∀ j : Nat, le < (j : Int) → j < i → pvt < ys.getD j default) →
      (∀ j : Nat, j < lo ∨ i ≤ j → ys.getD j default = xs0.getD j default) →
      ((List.range' i n).foldl (prtnStep pvt) (ys, le)).1.length = xs0.length ∧
      ((List.range' i n).foldl (prtnStep pvt) (ys, le)).1.Perm xs0 ∧
      (lo : Int) - 1 ≤ ((List.range' i n).foldl (prtnStep pvt) (ys, le)).2 ∧
      ((List.range' i n).foldl (prtnStep pvt) (ys, le)).2 < (hi : Int) ∧
      (∀ j : Nat, lo ≤ j → (j : Int) ≤ ((List.range' i n).foldl (prtnStep pvt) (ys, le)).2 →
        ((List.range' i n).foldl (prtnStep pvt) (ys, le)).1.getD j default ≤ pvt) ∧
      (∀ j : Nat, ((List.range' i n).foldl (prtnStep pvt) (ys, le)).2 < (j : Int) → j < hi →
        pvt < ((List.range' i n).foldl (prtnStep pvt) (ys, le)).1.getD j default) ∧
      (∀ j : Nat, j < lo ∨ hi ≤ j →
        ((List.range' i n).foldl (prtnStep pvt) (ys, le)).1.getD j default =
          xs0.getD j default)
  | 0, i, ys, le => by
    intro hin hloi hlen hperm hlb hub hlow hhigh hframe
    simp only [List.range', List.foldl_nil]
    have hieq : i = hi := by omega
    subst hieq
    exact ⟨hlen, hperm, hlb, by omega, hlow, hhigh, hframe⟩
  | n + 1, i, ys, le => by
    intro hin hloi hlen hperm hlb hub hlow hhigh hframe
    rw [List.range'_succ, List.foldl_cons]
    have hilt : i < hi := by omega
    have hiys : i < ys.length := by omega
    by_cases hc : ys.getD i default ≤ pvt
    · have hstep : prtnStep pvt (ys, le) i = (swap ys (le + 1).toNat i, le + 1) := by
        simp only [prtnStep]
        rw [if_pos hc]
      rw [hstep]
      have hL : ((le + 1).toNat : Int) = le + 1 := by omega
      have hLle : (le + 1).toNat ≤ i := by omega
      have hLlt : (le + 1).toNat < ys.length := by omega
      refine prtn_loop_inv pvt xs0 lo hi hhi n (i + 1) _ (le + 1) (by omega) (by omega)
        (by simpa [length_swap] using hlen)
        ((swap_perm ys _ i hLlt hiys).trans hperm)
        (by omega) (by omega) ?_ ?_ ?_
      · intro j hjlo hjle
        rcases Nat.lt_or_ge j (le + 1).toNat with hj | hj
        · rw [getD_swap_of_ne ys (by omega) (by omega)]
          exact hlow j hjlo (by omega)
        · have hjL : j = (le + 1).toNat := by omega
          subst hjL
          rw [getD_swap_left ys hLlt hiys]
          exact hc
      · intro j hjgt hji
        rcases eq_or_ne j i with rfl | hne
        · have hLi : (le + 1).toNat < j := by omega
          rw [getD_swap_right ys hLlt hiys]
          exact hhigh (le + 1).toNat (by omega) (by omega)
        · have hjlt : j < i := by omega
          rw [getD_swap_of_ne ys (by omega) hne]
          exact hhigh j (by omega) hjlt
      · intro j hj
        have hjne1 : j ≠ (le + 1).toNat := by omega
        have hjne2 : j ≠ i := by omega
        rw [getD_swap_of_ne ys hjne1 hjne2]
        exact hframe j (by omega)
    · have hstep : prtnStep pvt (ys, le) i = (ys, le) := by
        simp only [prtnStep]
        rw [if_neg hc]
      rw [hstep]
      refine prtn_loop_inv pvt xs0 lo hi hhi n (i + 1) ys le (by omega) (by omega)
        hlen hperm hlb (by omega) hlow ?_ ?_
      · intro j hjgt hji
        rcases eq_or_ne j i with rfl | hne
        · exact lt_of_not_le hc
        · exact hhigh j hjgt (by omega)
      · intro j hj
        exact hframe j (by omega)

/-- Full specification of the in-place partition `prtn`: the buffer keeps
its length and contents up to permutation, the reported position `p` lies
in `[lo, hi]` and now holds the old `xs[hi]` (the pivot), positions
`[lo, p)` hold elements `≤` pivot, positions `(p, hi]` hold elements `>`
pivot, and positions outside `[lo, hi]` are untouched. -/
theorem prtn_spec (xs : List α) {lo hi : Nat} (hlo : lo ≤ hi) (hhi : hi < xs.length) :
    (prtn xs lo hi).1.length = xs.length ∧
    (prtn xs lo hi).1.Perm xs ∧
    lo ≤ (prtn xs lo hi).2 ∧ (prtn xs lo hi).2 ≤ hi ∧
    (prtn xs lo hi).1.getD (prtn xs lo hi).2 default = xs.getD hi default ∧
    (∀ j : Nat, lo ≤ j → j < (prtn xs lo hi).2 →
      (prtn xs lo hi).1.getD j default ≤ xs.getD hi default) ∧
    (∀ j : Nat, (prtn xs lo hi).2 < j → j ≤ hi →
      xs.getD hi default < (prtn xs lo hi).1.getD j default) ∧
    (∀ j : Nat, j < lo ∨ hi < j →
      (prtn xs lo hi).1.getD j default = xs.getD j default) := by
  obtain ⟨hlen, hperm, hlb, hub, hlow, hhigh, hframe⟩ :=
    prtn_loop_inv (xs.getD hi default) xs lo hi hhi (hi - lo) lo xs ((lo : Int) - 1)
      (by omega) (le_refl lo) rfl (List.Perm.refl xs) (by omega) (by omega)
      (fun j hj1 hj2 => absurd hj2 (by omega))
      (fun j hj1 hj2 => absurd hj2 (by omega))
      (fun j _ => rfl)
  simp only [prtn]
  set S := (List.range' lo (hi - lo)).foldl (prtnStep (xs.getD hi default))
    (xs, (lo : Int) - 1) with hS
  have hLint : ((S.2 + 1).toNat : Int) = S.2 + 1 := by omega
  have hLlen : (S.2 + 1).toNat < S.1.length := by omega
  have hhilen : hi < S.1.length := by omega
  refine ⟨?_, ?_, ?_, ?_, ?_, ?_, ?_, ?_⟩
  · rw [length_swap]
    exact hlen
  · exact (swap_perm S.1 _ hi hLlen hhilen).trans hperm
  · omega
  · omega
  · rw [getD_swap_left S.1 hLlen hhilen]
    exact hframe hi (Or.inr (le_refl hi))
  · intro j hj1 hj2
    rw [getD_swap_of_ne S.1 (by omega) (by omega)]
    exact hlow j hj1 (by omega)
  · intro j hj1 hj2
    rcases eq_or_ne j hi with rfl | hne
    · rw [getD_swap_right S.1 hLlen hhilen]
      exact hhigh (S.2 + 1).toNat (by omega) (by omega)
    · rw [getD_swap_of_ne S.1 (by omega) hne]
      exact hhigh j (by omega) (by omega)
  · intro j hj
    rw [getD_swap_of_ne S.1 (by omega) (by omega)]
    exact hframe j (by omega)

/-- Gluing step for the bounded quicksort: from the partition facts and the
two recursively-sorted sub-ranges, the whole range `[lo, hi]` of the final
buffer is sorted, the buffer is a permutation of the original, and the
outside is untouched.  `zs` is the buffer after `prtn`, `as` after the
first recursive call, `bs` after the second. -/
theorem qsrt_combine (xs zs as bs : List α) (lo p : Nat) (hi : Int) (pvt : α)
    (hh0 : 0 ≤ hi) (hilen : hi.toNat < xs.length)
    (plen : zs.length = xs.length) (pperm : zs.Perm xs)
    (plo : lo ≤ p) (phi : p ≤ hi.toNat)
    (pval : zs.getD p default = pvt)
    (plow : ∀ j : Nat, lo ≤ j → j < p → zs.getD j default ≤ pvt)
    (phigh : ∀ j : Nat, p < j → j ≤ hi.toNat → pvt < zs.getD j default)
    (pframe : ∀ j : Nat, j < lo ∨ hi.toNat < j → zs.getD j default = xs.getD j default)
    (len1 : as.length = zs.length) (perm1 : as.Perm zs)
    (frame1 : ∀ j : Nat, ((j : Int) < lo ∨ (p : Int) - 1 < (j : Int)) →
      as.getD j default = zs.getD j default)
    (sort1 : ∀ j k : Nat, lo ≤ j → j ≤ k → (k : Int) ≤ (p : Int) - 1 →
      as.getD j default ≤ as.getD k default)
    (len2 : bs.length = as.length) (perm2 : bs.Perm as)
    (frame2 : ∀ j : Nat, ((j : Int) < ((p + 1 : Nat) : Int) ∨ hi < (j : Int)) →
      bs.getD j default = as.getD j default)
    (sort2 : ∀ j k : Nat, p + 1 ≤ j → j ≤ k → (k : Int) ≤ hi →
      bs.getD j default ≤ bs.getD k default) :
    bs.length = xs.length ∧ bs.Perm xs ∧
    (∀ j : Nat, ((j : Int) < lo ∨ hi < (j : Int)) →
      bs.getD j default = xs.getD j default) ∧
    (∀ j k : Nat, lo ≤ j → j ≤ k → (k : Int) ≤ hi →
      bs.getD j default ≤ bs.getD k default) := by
  refine ⟨len2.trans (len1.trans plen), perm2.trans (perm1.trans pperm), ?_, ?_⟩
  · intro j hj
    have h2 : bs.getD j default = as.getD j default := by
      refine frame2 j ?_
      rcases hj with h | h
      · exact Or.inl (by omega)
      · exact Or.inr (by omega)
    have h1 : as.getD j default = zs.getD j default := by
      refine frame1 j ?_
      rcases hj with h | h
      · exact Or.inl (by omega)
      · exact Or.inr (by omega)
    have h0 : zs.getD j default = xs.getD j default := by
      refine pframe j ?_
      rcases hj with h | h
      · exact Or.inl (by omega)
      · exact Or.inr (by omega)
    rw [h2, h1, h0]
  · intro j k hj hjk hk
    have hBp : bs.getD p default = pvt := by
      have e1 : bs.getD p default = as.getD p default := frame2 p (Or.inl (by omega))
      have e2 : as.getD p default = zs.getD p default := frame1 p (Or.inr (by omega))
      rw [e1, e2, pval]
    have hC : ∀ m : Nat, lo ≤ m → m < p → bs.getD m default ≤ pvt := by
      intro m hm1 hm2
      have hbm : bs.getD m default = as.getD m default := frame2 m (Or.inl (by omega))
      have hsp : (seg as lo (p - 1)).Perm (seg zs lo (p - 1)) := by
        refine seg_perm_of lo (p - 1) len1 perm1 ?_ ?_
        · intro j1 hj1
          exact frame1 j1 (Or.inl (by omega))
        · intro j1 hj1
          exact frame1 j1 (Or.inr (by omega))
      have hmem : as.getD m default ∈ seg as lo (p - 1) :=
        mem_seg.mpr ⟨m, hm1, by omega, by omega, rfl⟩
      rcases mem_seg.mp (hsp.mem_iff.mp hmem) with ⟨j0, hj0a, hj0b, hj0c, hj0v⟩
      rw [hbm, ← hj0v]
      exact plow j0 hj0a (by omega)
    have hD : ∀ m : Nat, p < m → (m : Int) ≤ hi → pvt < bs.getD m default := by
      intro m hm1 hm2
      have hsp2 : (seg bs (p + 1) hi.toNat).Perm (seg as (p + 1) hi.toNat) := by
        refine seg_perm_of (p + 1) hi.toNat len2 perm2 ?_ ?_
        · intro j1 hj1
          exact frame2 j1 (Or.inl (by omega))
        · intro j1 hj1
          exact frame2 j1 (Or.inr (by omega))
      have hmem : bs.getD m default ∈ seg bs (p + 1) hi.toNat :=
        mem_seg.mpr ⟨m, by omega, by omega, by omega, rfl⟩
      rcases mem_seg.mp (hsp2.mem_iff.mp hmem) with ⟨j0, hj0a, hj0b, hj0c, hj0v⟩
      have hasj0 : as.getD j0 default = zs.getD j0 default := frame1 j0 (Or.inr (by omega))
      rw [← hj0v, hasj0]
      exact phigh j0 (by omega) (by omega)
    rcases Nat.lt_or_ge k p with hkp | hkp
    · have hbj : bs.getD j default = as.getD j default := frame2 j (Or.inl (by omega))
      have hbk : bs.getD k default = as.getD k default := frame2 k (Or.inl (by omega))
      rw [hbj, hbk]
      exact sort1 j k hj hjk (by omega)
    · rcases Nat.eq_or_lt_of_le hkp with hkp1 | hkp1
      · subst hkp1
        rcases Nat.lt_or_ge j p with hjp | hjp
        · rw [hBp]
          exact hC j hj hjp
        · have hjeq : j = p := by omega
          subst hjeq
          exact le_refl _
      · have hbk := hD k hkp1 hk
        rcases Nat.lt_or_ge j (p + 1) with hjp | hjp
        · have hbj : bs.getD j default ≤ pvt := by
            rcases Nat.lt_or_ge j p with hjp2 | hjp2
            · exact hC j hj hjp2
            · have hjeq : j = p := by omega
              subst hjeq
              exact le_of_eq hBp
          exact le_of_lt (lt_of_le_of_lt hbj hbk)
        · exact sort2 j k hjp hjk hk

/-- Main invariant of the bounded in-place quicksort: the result is a
permutation of the buffer of the same length, positions outside `[lo, hi]`
are untouched, and positions inside `[lo, hi]` end up in non-descending
order.  `fuel` bounds the size of the range, enabling induction. -/
theorem qsrt_bounded_spec :
    ∀ (fuel : Nat) (xs : List α) (lo : Nat) (hi : Int),
      (hi + 1 - lo).toNat ≤ fuel →
      hi < (xs.length : Int) →
      (qsrt_bounded xs lo hi).length = xs.length ∧
      (qsrt_bounded xs lo hi).Perm xs ∧
      (∀ j : Nat, ((j : Int) < lo ∨ hi < (j : Int)) →
        (qsrt_bounded xs lo hi).getD j default = xs.getD j default) ∧
      (∀ j k : Nat, lo ≤ j → j ≤ k → (k : Int) ≤ hi →
        (qsrt_bounded xs lo hi).getD j default ≤ (qsrt_bounded xs lo hi).getD k default)
  | 0, xs, lo, hi => by
    intro hfuel hhi
    have hguard : (lo : Int) ≥ hi := by omega
    rw [qsrt_bounded, if_pos hguard]
    refine ⟨rfl, List.Perm.refl xs, fun j _ => rfl, ?_⟩
    intro j k hj hjk hk
    have hjeq : j = k := by omega
    subst hjeq
    exact le_refl _
  | fuel + 1, xs, lo, hi => by
    intro hfuel hhi
    by_cases hguard : (lo : Int) ≥ hi
    · rw [qsrt_bounded, if_pos hguard]
      refine ⟨rfl, List.Perm.refl xs, fun j _ => rfl, ?_⟩
      intro j k hj hjk hk
      have hjeq : j = k := by omega
      subst hjeq
      exact le_refl _
    · have hlt : (lo : Int) < hi := by omega
      have hh0 : 0 ≤ hi := by omega
      have hilen : hi.toNat < xs.length := by omega
      have hlohi : lo ≤ hi.toNat := by omega
      obtain ⟨plen, pperm, plo, phi, pval, plow, phigh, pframe⟩ :=
        prtn_spec xs hlohi hilen
      have hfuel1 : ((((prtn xs lo hi.toNat).2 : Int) - 1) + 1 - lo).toNat ≤ fuel := by
        omega
      have hhi1 : ((prtn xs lo hi.toNat).2 : Int) - 1 <
          ((prtn xs lo hi.toNat).1.length : Int) := by
        omega
      obtain ⟨len1, perm1, frame1, sort1⟩ :=
        qsrt_bounded_spec fuel (prtn xs lo hi.toNat).1 lo
          (((prtn xs lo hi.toNat).2 : Int) - 1) hfuel1 hhi1
      have hfuel2 : (hi + 1 - ((prtn xs lo hi.toNat).2 + 1 : Nat)).toNat ≤ fuel := by
        push_cast
        omega
      have hhi2 : hi < ((qsrt_bounded (prtn xs lo hi.toNat).1 lo
          (((prtn xs lo hi.toNat).2 : Int) - 1)).length : Int) := by
        omega
      obtain ⟨len2, perm2, frame2, sort2⟩ :=
        qsrt_bounded_spec fuel
          (qsrt_bounded (prtn xs lo hi.toNat).1 lo (((prtn xs lo hi.toNat).2 : Int) - 1))
          ((prtn xs lo hi.toNat).2 + 1) hi hfuel2 hhi2
      rw [qsrt_bounded, if_neg hguard]
      exact qsrt_combine xs (prtn xs lo hi.toNat).1
        (qsrt_bounded (prtn xs lo hi.toNat).1 lo (((prtn xs lo hi.toNat).2 : Int) - 1))
        (qsrt_bounded
          (qsrt_bounded (prtn xs lo hi.toNat).1 lo (((prtn xs lo hi.toNat).2 : Int) - 1))
          ((prtn xs lo hi.toNat).2 + 1) hi)
        lo (prtn xs lo hi.toNat).2 hi (xs.getD hi.toNat default)
        hh0 hilen plen pperm plo phi pval plow phigh pframe
        len1 perm1 frame1 sort1 len2 perm2 frame2 sort2

/-- The in-place sort leaves the buffer length unchanged. -/
theorem qsrt_length (xs : List α) : (qsrt xs).length = xs.length := by
  obtain ⟨hlen, -, -, -⟩ := qsrt_bounded_spec xs.length xs 0 ((xs.length : Int) - 1)
    (by omega) (by omega)
  simpa [qsrt] using hlen

/-- The buffer after `qsrt` is a permutation of the original buffer. -/
theorem qsrt_perm (xs : List α) : (qsrt xs).Perm xs := by
  obtain ⟨-, hperm, -, -⟩ := qsrt_bounded_spec xs.length xs 0 ((xs.length : Int) - 1)
    (by omega) (by omega)
  simpa [qsrt] using hperm

/-- The buffer after `qsrt` is sorted in non-descending order. -/
theorem qsrt_sorted (xs : List α) : (qsrt xs).Sorted (· ≤ ·) := by
  obtain ⟨hlen, -, -, hsort⟩ := qsrt_bounded_spec xs.length xs 0 ((xs.length : Int) - 1)
    (by omega) (by omega)
  rw [qsrt, List.Sorted, List.pairwise_iff_getElem]
  intro i j hi hj hij
  have h := hsort i j (Nat.zero_le i) (Nat.le_of_lt hij) (by omega)
  rw [getD_eq_getElem_of_lt _ hi, getD_eq_getElem_of_lt _ hj] at h
  simpa [List.get_eq_getElem] using h

/-- The in-place sort agrees with the reference sort. -/
theorem qsrt_eq_insertionSort (xs : List α) :
    qsrt xs = List.insertionSort (· ≤ ·) xs :=
  List.eq_of_perm_of_sorted
    ((qsrt_perm xs).trans (List.perm_insertionSort (· ≤ ·) xs).symm)
    (qsrt_sorted xs)
    (List.sorted_insertionSort (· ≤ ·) xs)

/-- Ranged version of the loop-frame property of `prtn`: the scan leaves
the counter in `[lo - 1, hi)` and touches no position outside
`[lo, hi)`. -/
theorem prtn_frame_loop (pvt : α) (lo hi : Nat) :
    ∀ (n i : Nat) (ys : List α) (le : Int),
      i + n = hi → lo ≤ i → (lo : Int) - 1 ≤ le → le < (i : Int) →
      ((lo : Int) - 1 ≤ ((List.range' i n).foldl (prtnStep pvt) (ys, le)).2 ∧
        ((List.range' i n).foldl (prtnStep pvt) (ys, le)).2 < (hi : Int)) ∧
      (∀ j : Nat, j < lo ∨ hi ≤ j →
        ((List.range' i n).foldl (prtnStep pvt) (ys, le)).1.getD j default =
          ys.getD j default)
  | 0, i, ys, le => by
    intro hin hloi hlb hub
    simp only [List.range', List.foldl_nil]
    exact ⟨⟨hlb, by omega⟩, fun j _ => by simp⟩
  | n + 1, i, ys, le => by
    intro hin hloi hlb hub
    rw [List.range'_succ, List.foldl_cons]
    by_cases hc : ys.getD i default ≤ pvt
    · have hstep : prtnStep pvt (ys, le) i = (swap ys (le + 1).toNat i, le + 1) := by
        simp only [prtnStep]
        rw [if_pos hc]
      rw [hstep]
      have ih := prtn_frame_loop pvt lo hi n (i + 1) (swap ys (le + 1).toNat i) (le + 1)
        (by omega) (by omega) (by omega) (by omega)
      refine ⟨ih.1, fun j hj => ?_⟩
      rw [ih.2 j hj]
      exact getD_swap_of_ne ys (by omega) (by omega)
    · have hstep : prtnStep pvt (ys, le) i = (ys, le) := by
        simp only [prtnStep]
        rw [if_neg hc]
      rw [hstep]
      exact prtn_frame_loop pvt lo hi n (i + 1) ys le (by omega) (by omega) (by omega)
        (by omega)

/-- Frame property of `prtn` for any buffer and any valid bounds
`lo ≤ hi`: positions outside `[lo, hi]` are untouched. -/
theorem prtn_frame (xs : List α) {lo hi : Nat} (hlo : lo ≤ hi) :
    ∀ j : Nat, j < lo ∨ hi < j →
      (prtn xs lo hi).1.getD j default = xs.getD j default := by
  intro j hj
  obtain ⟨⟨hlb, hub⟩, hframe⟩ := prtn_frame_loop (xs.getD hi default) lo hi (hi - lo) lo xs
    ((lo : Int) - 1) (by omega) (le_refl lo) (by omega) (by omega)
  simp only [prtn]
  rw [getD_swap_of_ne _ (by omega) (by omega)]
  exact hframe j (by omega)

/-- Frame property of `qsrt_bounded` for any buffer and any bounds:
positions outside `[lo, hi]` are untouched. -/
theorem qsrt_bounded_frame :
    ∀ (fuel : Nat) (xs : List α) (lo : Nat) (hi : Int),
      (hi + 1 - lo).toNat ≤ fuel →
      ∀ j : Nat, ((j : Int) < lo ∨ hi < (j : Int)) →
        (qsrt_bounded xs lo hi).getD j default = xs.getD j default
  | 0, xs, lo, hi => by
    intro hfuel j hj
    rw [qsrt_bounded, if_pos (by omega : (lo : Int) ≥ hi)]
  | fuel + 1, xs, lo, hi => by
    intro hfuel j hj
    by_cases hguard : (lo : Int) ≥ hi
    · rw [qsrt_bounded, if_pos hguard]
    · have hb := prtn_idx_bounds xs (show lo ≤ hi.toNat by omega)
      rw [qsrt_bounded, if_neg hguard]
      rw [qsrt_bounded_frame fuel _ ((prtn xs lo hi.toNat).2 + 1) hi
        (by push_cast; omega) j (by push_cast; omega)]
      rw [qsrt_bounded_frame fuel _ lo (((prtn xs lo hi.toNat).2 : Int) - 1)
        (by omega) j (by omega)]
      exact prtn_frame xs (by omega) j (by omega)

/-- Sorting an already `quicksort`-sorted list changes nothing. -/
theorem quicksort_idem (xs : List α) : quicksort (quicksort xs) = quicksort xs :=
  List.eq_of_perm_of_sorted (quicksort_perm (quicksort xs))
    (quicksort_sorted (quicksort xs)) (quicksort_sorted xs)

/-- Sorting an already `qsrt`-sorted buffer changes nothing. -/
theorem qsrt_idem (xs : List α) : qsrt (qsrt xs) = qsrt xs :=
  List.eq_of_perm_of_sorted (qsrt_perm (qsrt xs))
    (qsrt_sorted (qsrt xs)) (qsrt_sorted xs)

end InPlaceProofs

section StatePassingProofs

variable {α : Type} [LinearOrder α]

/-- The buffer handed to the copying quicksort comes back unchanged: its
body contains no item-assignment. -/
theorem quicksortS_fst (xs : List α) : (quicksortS xs).1 = xs := by
  cases xs with
  | nil => simp [quicksortS]
  | cons pivot rest => simp [quicksortS, partitionS]

/-- The state-passing copying quicksort returns the same sorted list as the
direct one. -/
theorem quicksortS_snd : ∀ xs : List α, (quicksortS xs).2 = quicksort xs
  | [] => by
    simp [quicksortS, quicksort]
  | pivot :: rest => by
    rw [quicksortS, quicksort]
    simp only [partitionS]
    rw [quicksortS_snd (partitionAux pivot rest).1,
      quicksortS_snd (partitionAux pivot rest).2]
termination_by xs => xs.length
decreasing_by
  · simp only [partitionAux_eq, List.length_cons]
    exact Nat.lt_succ_of_le (List.length_filter_le _ _)
  · simp only [partitionAux_eq, List.length_cons]
    exact Nat.lt_succ_of_le (List.length_filter_le _ _)

end StatePassingProofs

section Claims

/-- C1: for every finite sequence of totally-ordered elements,
`quicksort` returns a sorted permutation of its input, and the buffer after
`qsrt` is a sorted permutation of its initial contents. -/
theorem claim_C1 {α : Type} [LinearOrder α] [Inhabited α] (xs : List α) :
    ((quicksort xs).Perm xs ∧ (quicksort xs).Sorted (· ≤ ·)) ∧
    ((qsrt xs).Perm xs ∧ (qsrt xs).Sorted (· ≤ ·)) :=
  ⟨⟨quicksort_perm xs, quicksort_sorted xs⟩, qsrt_perm xs, qsrt_sorted xs⟩

/-- C2: on a non-empty input, `partition` takes the first element as pivot
and returns the order-preserving `≤`- and `>`-subsequences of the rest, it
does not mutate its argument (state-passing form returns the buffer as
received), and a single-element input yields `(empty, that element,
empty)`. -/
theorem claim_C2 {α : Type} [LinearOrder α] (pivot : α) (rest : List α) :
    partition (pivot :: rest) =
      some (rest.filter (fun x => decide (x ≤ pivot)), pivot,
        rest.filter (fun x => !decide (x ≤ pivot))) ∧
    (partitionS pivot rest).1 = pivot :: rest ∧
    partition [pivot] = some ([], pivot, []) := by
  refine ⟨?_, rfl, rfl⟩
  simp [partition, partitionAux_eq]

/-- C3: for valid bounds `lo ≤ hi < len`, `prtn` reports a pivot position
`p ∈ [lo, hi]`, permutes only the segment `[lo, hi]` (it is a permutation of
its old contents), places the old `xs[hi]` (the pivot) at `p`, with
positions `[lo, p)` holding elements `≤` pivot and positions `(p, hi]`
holding elements `>` pivot. -/
theorem claim_C3 {α : Type} [LinearOrder α] [Inhabited α] (xs : List α) (lo hi : Nat)
    (hlo : lo ≤ hi) (hhi : hi < xs.length) :
    (lo ≤ (prtn xs lo hi).2 ∧ (prtn xs lo hi).2 ≤ hi) ∧
    (seg (prtn xs lo hi).1 lo hi).Perm (seg xs lo hi) ∧
    (prtn xs lo hi).1.getD (prtn xs lo hi).2 default = xs.getD hi default ∧
    (∀ j : Nat, lo ≤ j → j < (prtn xs lo hi).2 →
      (prtn xs lo hi).1.getD j default ≤ xs.getD hi default) ∧
    (∀ j : Nat, (prtn xs lo hi).2 < j → j ≤ hi →
      xs.getD hi default < (prtn xs lo hi).1.getD j default) := by
  obtain ⟨plen, pperm, plo, phi, pval, plow, phigh, pframe⟩ := prtn_spec xs hlo hhi
  refine ⟨⟨plo, phi⟩, ?_, pval, plow, phigh⟩
  exact seg_perm_of lo hi plen pperm (fun j hj => pframe j (Or.inl hj))
    (fun j hj => pframe j (Or.inr hj))

/-- C3 witness: the spec's concrete scenario, buffer `[4,2,6,1,3]` with
`lo = 0`, `hi = 4` (pivot `3`). -/
theorem claim_C3_witness :
    ((0 ≤ 4 ∧ 4 < ([4,2,6,1,3] : List Int).length) ∧
      ((0 ≤ (prtn ([4,2,6,1,3] : List Int) 0 4).2 ∧
          (prtn ([4,2,6,1,3] : List Int) 0 4).2 ≤ 4) ∧
        (seg (prtn ([4,2,6,1,3] : List Int) 0 4).1 0 4).Perm
          (seg ([4,2,6,1,3] : List Int) 0 4) ∧
        (prtn ([4,2,6,1,3] : List Int) 0 4).1.getD
            (prtn ([4,2,6,1,3] : List Int) 0 4).2 default =
          ([4,2,6,1,3] : List Int).getD 4 default ∧
        (∀ j : Nat, 0 ≤ j → j < (prtn ([4,2,6,1,3] : List Int) 0 4).2 →
          (prtn ([4,2,6,1,3] : List Int) 0 4).1.getD j default ≤
            ([4,2,6,1,3] : List Int).getD 4 default) ∧
        (∀ j : Nat, (prtn ([4,2,6,1,3] : List Int) 0 4).2 < j → j ≤ 4 →
          ([4,2,6,1,3] : List Int).getD 4 default <
            (prtn ([4,2,6,1,3] : List Int) 0 4).1.getD j default))) :=
  ⟨⟨by decide, by decide⟩, claim_C3 ([4,2,6,1,3] : List Int) 0 4 (by decide) (by decide)⟩

/-- C4: both partitioners put elements equal to the pivot on the
less-or-equal side (the copying loop filters with `≤`; the in-place step
moves an element equal to the pivot into the `≤`-region), and consequently
both sorts agree, element by element, with the reference sort on every
input, duplicate keys included. -/
theorem claim_C4 {α : Type} [LinearOrder α] [Inhabited α] (xs : List α)
    (pivot : α) (rest : List α) :
    (partitionAux pivot rest).1 = rest.filter (fun x => decide (x ≤ pivot)) ∧
    (∀ (s : List α × Int) (i : Nat), s.1.getD i default = pivot →
      prtnStep pivot s i = (swap s.1 (s.2 + 1).toNat i, s.2 + 1)) ∧
    quicksort xs = List.insertionSort (· ≤ ·) xs ∧
    qsrt xs = List.insertionSort (· ≤ ·) xs := by
  refine ⟨?_, ?_, quicksort_eq_insertionSort xs, qsrt_eq_insertionSort xs⟩
  · rw [partitionAux_eq]
  · intro s i h
    simp only [prtnStep]
    rw [if_pos (le_of_eq h)]

/-- C4 witness: a duplicate-key input `[3,1,2,3]` with an element equal to
the pivot, checked through the theorem. -/
theorem claim_C4_witness :
    (([3,1,2] : List Int).getD 0 default = 3 ∧
      prtnStep (3 : Int) (([3,1,2] : List Int), -1) 0 =
        (swap ([3,1,2] : List Int) ((-1 : Int) + 1).toNat 0, (-1 : Int) + 1)) ∧
    qsrt ([3,1,2,3] : List Int) = List.insertionSort (· ≤ ·) [3,1,2,3] :=
  ⟨⟨by decide,
    (claim_C4 ([3,1,2] : List Int) 3 []).2.1 (([3,1,2] : List Int), -1) 0 (by decide)⟩,
    (claim_C4 ([3,1,2,3] : List Int) 3 []).2.2.2⟩

/-- C5: the copying quicksort does not mutate its argument: in the
state-passing embedding both `quicksort` and its helper `partition` return
the buffer exactly as received, while the returned value is the sorted
fresh list. -/
theorem claim_C5 {α : Type} [LinearOrder α] (xs : List α) (pivot : α) (rest : List α) :
    (quicksortS xs).1 = xs ∧ (partitionS pivot rest).1 = pivot :: rest ∧
    (quicksortS xs).2 = quicksort xs :=
  ⟨quicksortS_fst xs, rfl, quicksortS_snd xs⟩

/-- C6 counterexample: for bounds `lo = 2 > hi = 0` the final pivot swap of
`prtn` still runs, so `prtn([10,20,30], 2, 0)` changes position 0 — an
index outside the (empty) range `[2, 0]` — from 10 to 30. -/
theorem claim_C6_counterexample :
    (0 : Nat) < 2 ∧
    (prtn ([10,20,30] : List Int) 2 0).1.getD 0 default = 30 ∧
    ([10,20,30] : List Int).getD 0 default = 10 := by
  decide

/-- C6 amended: for bounds with `lo ≤ hi` (the contract's precondition),
`prtn` leaves every position outside `[lo, hi]` unchanged, and
`qsrt_bounded` does so for all bounds. -/
theorem claim_C6 {α : Type} [LinearOrder α] [Inhabited α] (xs : List α) (lo hi : Nat)
    (hlo : lo ≤ hi) (lo2 : Nat) (hi2 : Int) :
    (∀ j : Nat, j < lo ∨ hi < j →
      (prtn xs lo hi).1.getD j default = xs.getD j default) ∧
    (∀ j : Nat, ((j : Int) < lo2 ∨ hi2 < (j : Int)) →
      (qsrt_bounded xs lo2 hi2).getD j default = xs.getD j default) :=
  ⟨prtn_frame xs hlo, qsrt_bounded_frame (hi2 + 1 - lo2).toNat xs lo2 hi2 (le_refl _)⟩

/-- C6 witness: concrete frame check on `[5,4,3,2,1]` with `lo = 1`,
`hi = 3`. -/
theorem claim_C6_witness :
    (1 : Nat) ≤ 3 ∧
    ((∀ j : Nat, j < 1 ∨ 3 < j →
        (prtn ([5,4,3,2,1] : List Int) 1 3).1.getD j default =
          ([5,4,3,2,1] : List Int).getD j default) ∧
      (∀ j : Nat, ((j : Int) < 1 ∨ (3 : Int) < (j : Int)) →
        (qsrt_bounded ([5,4,3,2,1] : List Int) 1 3).getD j default =
          ([5,4,3,2,1] : List Int).getD j default)) :=
  ⟨by decide, claim_C6 ([5,4,3,2,1] : List Int) 1 3 (by decide) 1 3⟩

/-- C7: both sorts are idempotent: re-sorting an already-sorted output
changes nothing. -/
theorem claim_C7 {α : Type} [LinearOrder α] [Inhabited α] (xs : List α) :
    quicksort (quicksort xs) = quicksort xs ∧ qsrt (qsrt xs) = qsrt xs :=
  ⟨quicksort_idem xs, qsrt_idem xs⟩

/-- C8: `qsrt_bounded` returns immediately in the terminal state
`lo ≥ hi`; otherwise the reported pivot position lies in `[lo, hi]` and
both recursive ranges `[lo, p-1]` and `[p+1, hi]` are strictly smaller (the
termination measure `(hi + 1 - lo).toNat` decreases); the top level `qsrt`
invokes it with `lo = 0`, `hi = len - 1`, and an empty buffer (where
`hi = -1 < 0 = lo`) hits the terminal state immediately. -/
theorem claim_C8 {α : Type} [LinearOrder α] [Inhabited α] (xs : List α) :
    (∀ (lo : Nat) (hi : Int), (lo : Int) ≥ hi → qsrt_bounded xs lo hi = xs) ∧
    (∀ (lo : Nat) (hi : Int), (lo : Int) < hi → hi < (xs.length : Int) →
      (lo ≤ (prtn xs lo hi.toNat).2 ∧ ((prtn xs lo hi.toNat).2 : Int) ≤ hi) ∧
      ((((prtn xs lo hi.toNat).2 : Int) - 1) + 1 - lo).toNat < (hi + 1 - lo).toNat ∧
      (hi + 1 - (((prtn xs lo hi.toNat).2 : Int) + 1)).toNat < (hi + 1 - lo).toNat) ∧
    qsrt xs = qsrt_bounded xs 0 ((xs.length : Int) - 1) ∧
    (xs = [] → qsrt xs = xs) := by
  refine ⟨?_, ?_, rfl, ?_⟩
  · intro lo hi h
    rw [qsrt_bounded, if_pos h]
  · intro lo hi h1 h2
    have hb := prtn_idx_bounds xs (show lo ≤ hi.toNat by omega)
    exact ⟨⟨hb.1, by omega⟩, by omega, by omega⟩
  · rintro rfl
    rw [qsrt, qsrt_bounded, if_pos (by norm_num)]

/-- C8 witness: the empty buffer hits the terminal state at once, and on
`[3,1,2]` with `lo = 0 < hi = 2` both recursive ranges shrink. -/
theorem claim_C8_witness :
    (((0 : Nat) : Int) ≥ -1 ∧ qsrt_bounded ([] : List Int) 0 (-1) = []) ∧
    qsrt ([] : List Int) = [] ∧
    (((0 : Nat) : Int) < 2 ∧ (2 : Int) < (([3,1,2] : List Int).length : Int) ∧
      ((0 ≤ (prtn ([3,1,2] : List Int) 0 (2 : Int).toNat).2 ∧
          ((prtn ([3,1,2] : List Int) 0 (2 : Int).toNat).2 : Int) ≤ 2) ∧
        ((((prtn ([3,1,2] : List Int) 0 (2 : Int).toNat).2 : Int) - 1) + 1 - 0).toNat <
          ((2 : Int) + 1 - 0).toNat ∧
        ((2 : Int) + 1 -
            (((prtn ([3,1,2] : List Int) 0 (2 : Int).toNat).2 : Int) + 1)).toNat <
          ((2 : Int) + 1 - 0).toNat)) :=
  ⟨⟨by decide, (claim_C8 ([] : List Int)).1 0 (-1) (by decide)⟩,
    (claim_C8 ([] : List Int)).2.2.2 rfl,
    by decide, by decide,
    (claim_C8 ([3,1,2] : List Int)).2.1 0 2 (by decide) (by decide)⟩

/-- C9: under the `randint(0, max)` contract (inclusive bounds), `gen_lists`
produces exactly `n` lists of exactly `len` elements, each in `[0, max]`;
both bounds are attainable under the contract; and with its defaults the
benchmark harness asks the generator for 1000 sequences of length `2^k`
for every exponent `k` in `0..9`. -/
theorem claim_C9 (rand : Nat → Nat → Int) (n len : Nat) (max : Int)
    (hrand : ∀ j i : Nat, 0 ≤ rand j i ∧ rand j i ≤ max) :
    (gen_lists rand n len max).length = n ∧
    (∀ l ∈ gen_lists rand n len max, l.length = len) ∧
    (∀ l ∈ gen_lists rand n len max, ∀ x ∈ l, 0 ≤ x ∧ x ≤ max) ∧
    (0 ≤ max → 0 < n → 0 < len →
      (∃ r0 : Nat → Nat → Int, (∀ j i : Nat, 0 ≤ r0 j i ∧ r0 j i ≤ max) ∧
        ∃ l ∈ gen_lists r0 n len max, (0 : Int) ∈ l) ∧
      (∃ r1 : Nat → Nat → Int, (∀ j i : Nat, 0 ≤ r1 j i ∧ r1 j i ≤ max) ∧
        ∃ l ∈ gen_lists r1 n len max, max ∈ l)) ∧
    time_srt_calls 1000 0 9 =
      [(1000, 1), (1000, 2), (1000, 4), (1000, 8), (1000, 16),
       (1000, 32), (1000, 64), (1000, 128), (1000, 256), (1000, 512)] := by
  refine ⟨by simp [gen_lists], ?_, ?_, ?_, by decide⟩
  · intro l hl
    simp only [gen_lists, List.mem_map] at hl
    obtain ⟨j, -, rfl⟩ := hl
    simp
  · intro l hl x hx
    simp only [gen_lists, List.mem_map] at hl
    obtain ⟨j, -, rfl⟩ := hl
    simp only [List.mem_map] at hx
    obtain ⟨i, -, rfl⟩ := hx
    exact hrand j i
  · intro hmax hn hlen
    constructor
    · refine ⟨fun _ _ => 0, fun j i => ⟨le_refl 0, hmax⟩, ?_⟩
      refine ⟨(List.range len).map (fun _ => (0 : Int)), ?_, ?_⟩
      · simp only [gen_lists, List.mem_map]
        exact ⟨0, List.mem_range.mpr hn, trivial⟩
      · simp only [List.mem_map]
        exact ⟨0, List.mem_range.mpr hlen, trivial⟩
    · refine ⟨fun _ _ => max, fun j i => ⟨hmax, le_refl max⟩, ?_⟩
      refine ⟨(List.range len).map (fun _ => max), ?_, ?_⟩
      · simp only [gen_lists, List.mem_map]
        exact ⟨0, List.mem_range.mpr hn, trivial⟩
      · simp only [List.mem_map]
        exact ⟨0, List.mem_range.mpr hlen, trivial⟩

/-- C9 witness: a concrete oracle within the `randint(0, 5)` contract. -/
theorem claim_C9_witness :
    (∀ j i : Nat, 0 ≤ (fun _ _ => (2 : Int)) j i ∧ (fun _ _ => (2 : Int)) j i ≤ 5) ∧
    (gen_lists (fun _ _ => (2 : Int)) 3 4 5).length = 3 :=
  ⟨fun j i => ⟨by norm_num, by norm_num⟩,
    (claim_C9 (fun _ _ => (2 : Int)) 3 4 5 (fun j i => ⟨by norm_num, by norm_num⟩)).1⟩

/-- C10: the reference-baseline wrapper `builtin_sort` returns `None` and
leaves its argument unchanged — it sorts a freshly built copy and discards
it. -/
theorem claim_C10 {α : Type} [LinearOrder α] (xs : List α) :
    builtin_sort xs = (xs, ()) := rfl

end Claims

end DivideAndConquer
